import Mathlib

/-!
Verification of `refresh_prompts.py`, the prompt-refresher maintenance
script: a shallow embedding over `List Char`.

The script's core is a replace-or-append of a metadata tag
`<!-- run_metadata: last_checked=YYYY-MM-DD -->`:

* `re.search` / `re.sub` over the fixed pattern
  `<!-- run_metadata: last_checked=\d{4}-\d{2}-\d{2} -->` are embedded as
  `hasMatch` and `reSub` (a left-to-right scan replacing each
  non-overlapping occurrence, which is exactly Python's `re.sub` semantics
  for this fixed-length pattern; `\d` is modelled as an ASCII digit test).
* `str.strip()` is `pyStrip` (ASCII whitespace on both ends).
* the whole `refresh_prompt` function, including its validation warnings,
  its change detection and its return value, is `refresh_prompt` over an
  optional file content (`none` models a missing file); log lines are
  modelled by the constructors of `LogMsg`.
* the `__main__` path-resolution fallback is `resolveTargetPath` over
  paths modelled as lists of components (`os.path.join` appends
  components, `os.path.dirname` drops the last one).
-/

namespace RefreshPrompts

/-- File content is modelled as a list of characters. -/
abbrev Str := List Char

/-- The literal opening of the metadata tag, up to and including `=`. -/
def tagLit : Str := "<!-- run_metadata: last_checked=".toList

/-- The literal closing of the metadata tag: a space and the arrow. -/
def tagEnd : Str := " -->".toList

/-- `metadata_tag = f"<!-- run_metadata: last_checked={today} -->"`
(refresh_prompts.py line 33), for an arbitrary date string. -/
def mkTag (d : Str) : Str := tagLit ++ d ++ tagEnd

/-- Consume an exact literal at the head of a string, returning the rest. -/
def dropLit : Str → Str → Option Str
  | [], s => some s
  | _ :: _, [] => none
  | p :: ps, c :: cs => if c = p then dropLit ps cs else none

/-- Consume `\d{4}-\d{2}-\d{2}` at the head of a string, returning the ten
consumed characters and the rest.  `\d` is modelled as `Char.isDigit`. -/
def readDate : Str → Option (Str × Str)
  | a :: b :: c :: d :: s1 :: m1 :: m2 :: s2 :: e1 :: e2 :: r =>
    if a.isDigit && b.isDigit && c.isDigit && d.isDigit && (s1 == '-') &&
       m1.isDigit && m2.isDigit && (s2 == '-') && e1.isDigit && e2.isDigit
    then some ([a, b, c, d, s1, m1, m2, s2, e1, e2], r)
    else none
  | _ => none

/-- A string that is exactly a date in the pattern's `\d{4}-\d{2}-\d{2}` form. -/
def validDate (d : Str) : Bool := decide (readDate d = some (d, []))

/-- Match the whole regex
`<!-- run_metadata: last_checked=\d{4}-\d{2}-\d{2} -->` at the head of the
string (refresh_prompts.py line 36), returning the date and the remainder. -/
def matchAt (s : Str) : Option (Str × Str) :=
  match dropLit tagLit s with
  | none => none
  | some s1 =>
    match readDate s1 with
    | none => none
    | some (d, s2) =>
      match dropLit tagEnd s2 with
      | none => none
      | some r => some (d, r)

/-- `re.search(pattern, content)` (line 38): does the pattern match anywhere? -/
def hasMatch : Str → Bool
  | [] => false
  | c :: t => (matchAt (c :: t)).isSome || hasMatch t

theorem dropLit_eq_some {p s r : Str} : dropLit p s = some r ↔ s = p ++ r := by
  induction p generalizing s with
  | nil => simp [dropLit]
  | cons x xs ih =>
    cases s with
    | nil => simp [dropLit]
    | cons c cs =>
      simp only [dropLit, List.cons_append, List.cons.injEq]
      split
      · next h => subst h; rw [ih]; simp
      · next h =>
        constructor
        · intro hc; cases hc
        · rintro ⟨rfl, -⟩; exact absurd rfl h

theorem dropLit_self (p t : Str) : dropLit p (p ++ t) = some t :=
  dropLit_eq_some.mpr rfl

theorem readDate_eq_some {s d r : Str} (h : readDate s = some (d, r)) :
    s = d ++ r ∧ validDate d = true := by
  unfold readDate at h
  split at h
  · next a b c e s1 m1 m2 s2 e1 e2 rr =>
    split at h
    · next hcond =>
      injection h with h1
      injection h1 with hd hr
      subst hd; subst hr
      refine ⟨by simp, ?_⟩
      simp only [validDate, readDate, hcond, if_true, List.append_nil]
      simp
    · cases h
  · cases h

theorem readDate_append {d : Str} (hd : validDate d = true) (r : Str) :
    readDate (d ++ r) = some (d, r) := by
  have h : readDate d = some (d, []) := of_decide_eq_true hd
  unfold readDate at h
  split at h
  · next a b c e s1 m1 m2 s2 e1 e2 rr =>
    split at h
    · next hcond =>
      injection h with h1
      injection h1 with hd2 hr
      subst hr
      have he : ([a, b, c, e, s1, m1, m2, s2, e1, e2] : Str) ++ r
          = a :: b :: c :: e :: s1 :: m1 :: m2 :: s2 :: e1 :: e2 :: r := by simp
      rw [he]
      simp [readDate, hcond]
    · cases h
  · cases h

theorem matchAt_eq_some {s d r : Str} :
    matchAt s = some (d, r) ↔ validDate d = true ∧ s = mkTag d ++ r := by
  constructor
  · intro h
    unfold matchAt at h
    split at h
    · cases h
    · next s1 h1 =>
      split at h
      · cases h
      · next d' s2 h2 =>
        split at h
        · cases h
        · next r' h3 =>
          injection h with h4
          injection h4 with hd hr
          subst hd; subst hr
          obtain ⟨hs1, hv⟩ := readDate_eq_some h2
          have e1 := dropLit_eq_some.mp h1
          have e3 := dropLit_eq_some.mp h3
          subst e3
          subst hs1
          subst e1
          exact ⟨hv, by simp [mkTag]⟩
  · rintro ⟨hv, rfl⟩
    have h : mkTag d ++ r = tagLit ++ (d ++ (tagEnd ++ r)) := by simp [mkTag]
    rw [h]
    simp [matchAt, dropLit_self, readDate_append hv]

theorem validDate_length {d : Str} (hd : validDate d = true) : d.length = 10 := by
  have h : readDate d = some (d, []) := of_decide_eq_true hd
  unfold readDate at h
  split at h
  · next a b c e s1 m1 m2 s2 e1 e2 rr =>
    split at h
    · next hcond =>
      injection h with h1
      injection h1 with hd2 hr
      subst hr
      rw [← hd2]
      simp
    · cases h
  · cases h

theorem validDate_chars {d : Str} (hd : validDate d = true) :
    ∀ c ∈ d, c.isDigit = true ∨ c = '-' := by
  have h : readDate d = some (d, []) := of_decide_eq_true hd
  unfold readDate at h
  split at h
  · next a b c e s1 m1 m2 s2 e1 e2 rr =>
    split at h
    · next hcond =>
      injection h with h1
      injection h1 with hd2 hr
      simp only [Bool.and_eq_true, beq_iff_eq] at hcond
      obtain ⟨⟨⟨⟨⟨⟨⟨⟨⟨c1, c2⟩, c3⟩, c4⟩, c5⟩, c6⟩, c7⟩, c8⟩, c9⟩, c10⟩ := hcond
      rw [← hd2]
      intro x hx
      simp only [List.mem_cons, List.not_mem_nil, or_false] at hx
      rcases hx with rfl | rfl | rfl | rfl | rfl | rfl | rfl | rfl | rfl | rfl
      · exact Or.inl c1
      · exact Or.inl c2
      · exact Or.inl c3
      · exact Or.inl c4
      · exact Or.inr c5
      · exact Or.inl c6
      · exact Or.inl c7
      · exact Or.inr c8
      · exact Or.inl c9
      · exact Or.inl c10
    · cases h
  · cases h

theorem tag_len {d : Str} (hd : validDate d = true) : (mkTag d).length = 46 := by
  have h10 := validDate_length hd
  have h1 : tagLit.length = 32 := by decide
  have h2 : tagEnd.length = 4 := by decide
  simp [mkTag, h1, h2, h10]

theorem matchAt_some_length {s d r : Str} (h : matchAt s = some (d, r)) :
    r.length < s.length := by
  obtain ⟨hv, rfl⟩ := matchAt_eq_some.mp h
  have := tag_len hv
  simp [List.length_append, this]

/-- `re.sub(pattern, metadata_tag, content)` (line 39): scan left to right,
replacing each non-overlapping occurrence of the pattern with the tag for
`today`, copying every other character through. -/
def reSub (today : Str) (s : Str) : Str :=
  match h : matchAt s with
  | some (_, r) => mkTag today ++ reSub today r
  | none =>
    match s with
    | [] => []
    | c :: t => c :: reSub today t
termination_by s.length
decreasing_by
  · exact matchAt_some_length h
  · simp

theorem reSub_nil (today : Str) : reSub today [] = [] := by
  conv_lhs => unfold reSub
  split
  · next d' r' h' =>
    have hnone : matchAt [] = none := by decide
    rw [hnone] at h'
    cases h'
  · rfl

theorem reSub_match {today s d r : Str} (h : matchAt s = some (d, r)) :
    reSub today s = mkTag today ++ reSub today r := by
  conv_lhs => unfold reSub
  split
  · next d' r' h' =>
    rw [h'] at h
    injection h with h1
    injection h1 with h2 h3
    subst h3
    rfl
  · next h' => rw [h'] at h; cases h

theorem reSub_skip {today : Str} {c : Char} {t : Str}
    (h : matchAt (c :: t) = none) :
    reSub today (c :: t) = c :: reSub today t := by
  conv_lhs => unfold reSub
  split
  · next d' r' h' => rw [h'] at h; cases h
  · rfl

theorem hasMatch_of_matchAt {s : Str} {p : Str × Str}
    (h : matchAt s = some p) : hasMatch s = true := by
  cases s with
  | nil =>
    have hnone : matchAt [] = none := by decide
    rw [hnone] at h
    cases h
  | cons c t => simp [hasMatch, h]

theorem hasMatch_iff {s : Str} :
    hasMatch s = true ↔
      ∃ d r₁ r₂, validDate d = true ∧ s = r₁ ++ mkTag d ++ r₂ := by
  constructor
  · intro h
    induction s with
    | nil => cases h
    | cons c t ih =>
      simp only [hasMatch, Bool.or_eq_true] at h
      rcases h with h | h
      · rw [Option.isSome_iff_exists] at h
        obtain ⟨⟨d, r⟩, hm⟩ := h
        obtain ⟨hv, heq⟩ := matchAt_eq_some.mp hm
        exact ⟨d, [], r, hv, by simp [heq]⟩
      · obtain ⟨d, r₁, r₂, hv, heq⟩ := ih h
        exact ⟨d, c :: r₁, r₂, hv, by simp [heq]⟩
  · rintro ⟨d, r₁, r₂, hv, rfl⟩
    induction r₁ with
    | nil =>
      have hm : matchAt ([] ++ mkTag d ++ r₂) = some (d, r₂) :=
        matchAt_eq_some.mpr ⟨hv, by simp⟩
      exact hasMatch_of_matchAt hm
    | cons c r₁ ih =>
      simp only [List.cons_append, hasMatch, Bool.or_eq_true]
      exact Or.inr ih

theorem tagLit_head : tagLit = '<' :: "!-- run_metadata: last_checked=".toList := by
  decide

/-- Inside a well-formed tag the character `<` occurs only at the head:
a tag occurrence can never start strictly inside another one. -/
theorem tag_no_inner_lt {e : Str} (he : validDate e = true) :
    ∀ k m : Str, mkTag e = k ++ '<' :: m → k = [] := by
  have hmem : '<' ∉ ("!-- run_metadata: last_checked=".toList ++ e ++ tagEnd) := by
    intro hx
    rcases List.mem_append.mp hx with hx | hx
    · rcases List.mem_append.mp hx with hx | hx
      · revert hx; decide
      · rcases validDate_chars he _ hx with hdig | hdash
        · cases hdig
        · cases hdash
    · revert hx; decide
  intro k m hk
  have hhead : mkTag e = '<' :: ("!-- run_metadata: last_checked=".toList ++ e ++ tagEnd) := by
    simp [mkTag, tagLit_head]
  rw [hhead] at hk
  cases k with
  | nil => rfl
  | cons x k =>
    injection hk with h1 h2
    exact absurd (h2 ▸ List.mem_append_right k (List.mem_cons_self '<' m)) hmem

theorem tag_no_newline {e : Str} (he : validDate e = true) : '\n' ∉ mkTag e := by
  intro hx
  simp only [mkTag, List.append_assoc, List.mem_append] at hx
  rcases hx with hx | hx | hx
  · revert hx; decide
  · rcases validDate_chars he _ hx with hdig | hdash
    · cases hdig
    · cases hdash
  · revert hx; decide

theorem mkTag_inj {d e : Str} (hd : validDate d = true) (he : validDate e = true)
    (h : mkTag d = mkTag e) : d = e := by
  simp only [mkTag, List.append_assoc] at h
  have h1 : d ++ tagEnd = e ++ tagEnd := List.append_cancel_left h
  exact List.append_inj_left h1 (by rw [validDate_length hd, validDate_length he])

theorem tag_eq_append {d e x y : Str} (hd : validDate d = true)
    (he : validDate e = true) (h : mkTag d ++ x = mkTag e ++ y) :
    d = e ∧ x = y := by
  have hlen : (mkTag d).length = (mkTag e).length := by
    rw [tag_len hd, tag_len he]
  obtain ⟨h1, h2⟩ := List.append_inj h hlen
  exact ⟨mkTag_inj hd he h1, h2⟩

theorem mkTag_head (d : Str) :
    mkTag d = '<' :: ("!-- run_metadata: last_checked=".toList ++ d ++ tagEnd) := by
  simp [mkTag, tagLit_head]

/-- Where one occurrence of the pattern can sit inside a string made of a
plain segment, one explicit tag, and a remainder: entirely inside the
segment, exactly the explicit tag, or entirely inside the remainder.
Straddling positions are impossible because `<` occurs only at a tag's
head. -/
theorem occ_split {d e u w r₁ r₂ : Str} (hd : validDate d = true)
    (he : validDate e = true)
    (h : u ++ mkTag e ++ w = r₁ ++ mkTag d ++ r₂) :
    (∃ a b, u = a ++ mkTag d ++ b) ∨
    (r₁ = u ∧ d = e ∧ r₂ = w) ∨
    (∃ a b, w = a ++ mkTag d ++ b ∧ r₁ = u ++ mkTag e ++ a ∧ r₂ = b) := by
  have h' : u ++ (mkTag e ++ w) = r₁ ++ (mkTag d ++ r₂) := by
    simpa [List.append_assoc] using h
  rcases List.append_eq_append_iff.mp h' with ⟨k, hk1, hk2⟩ | ⟨k, hk1, hk2⟩
  · rcases List.append_eq_append_iff.mp hk2 with ⟨m, hm1, hm2⟩ | ⟨m, hm1, hm2⟩
    · refine Or.inr (Or.inr ⟨m, r₂, by simp [hm2], ?_, rfl⟩)
      rw [hk1, hm1]
      simp
    · cases m with
      | nil =>
        simp only [List.append_nil] at hm1
        simp only [List.nil_append] at hm2
        refine Or.inr (Or.inr ⟨[], r₂, by simpa using hm2.symm, ?_, rfl⟩)
        rw [hk1, hm1]
        simp
      | cons x m' =>
        have hx : x = '<' := by
          have hcopy := hm2
          rw [mkTag_head d] at hcopy
          simp only [List.cons_append] at hcopy
          injection hcopy with hh1 hh2
          exact hh1.symm
        subst hx
        have hk0 := tag_no_inner_lt he k m' hm1
        subst hk0
        simp only [List.nil_append] at hm1
        rw [← hm1] at hm2
        obtain ⟨hde, hrw⟩ := tag_eq_append hd he hm2
        exact Or.inr (Or.inl ⟨by simpa using hk1, hde, hrw⟩)
  · rcases List.append_eq_append_iff.mp hk2 with ⟨m, hm1, hm2⟩ | ⟨m, hm1, hm2⟩
    · refine Or.inl ⟨r₁, m, ?_⟩
      rw [hk1, hm1]
      simp
    · cases m with
      | nil =>
        simp only [List.append_nil] at hm1
        refine Or.inl ⟨r₁, [], ?_⟩
        rw [hk1, hm1]
        simp
      | cons x m' =>
        have hx : x = '<' := by
          have hcopy := hm2
          rw [mkTag_head e] at hcopy
          simp only [List.cons_append] at hcopy
          injection hcopy with hh1 hh2
          exact hh1.symm
        subst hx
        have hk0 := tag_no_inner_lt hd k m' hm1
        subst hk0
        simp only [List.nil_append] at hm1
        rw [← hm1] at hm2
        obtain ⟨hed, hwr⟩ := tag_eq_append he hd hm2
        exact Or.inr (Or.inl ⟨by simpa using hk1.symm, hed.symm, hwr.symm⟩)

/-- A decomposition of a string into plain segments and tag occurrences,
re-glued with the original dates. -/
def blocksOrig : List (Str × Str) → Str → Str
  | [], z => z
  | (seg, d) :: rest, z => seg ++ mkTag d ++ blocksOrig rest z

/-- The same decomposition re-glued with every tag replaced by the tag for
`today`, which is what `re.sub` produces. -/
def blocksNew (today : Str) : List (Str × Str) → Str → Str
  | [], z => z
  | (seg, _) :: rest, z => seg ++ mkTag today ++ blocksNew today rest z

/-- `re.sub` structure theorem: every string splits into match-free segments
and pattern occurrences; `reSub` keeps the segments (every character outside
the occurrences, in place) and replaces exactly the occurrences. -/
theorem reSub_decomp (today s : Str) :
    ∃ bs z, s = blocksOrig bs z ∧ reSub today s = blocksNew today bs z ∧
      (∀ p ∈ bs, validDate p.2 = true ∧ hasMatch p.1 = false) ∧
      hasMatch z = false ∧ (hasMatch s = true ↔ bs ≠ []) := by
  match s with
  | [] =>
    exact ⟨[], [], by simp [blocksOrig], by simp [blocksNew, reSub_nil],
      by simp, by simp [hasMatch], by simp [hasMatch]⟩
  | c :: t =>
    match hm : matchAt (c :: t) with
    | some (d, r) =>
      have hlen : r.length < (c :: t).length := matchAt_some_length hm
      obtain ⟨bs, z, h1, h2, h3, h4, h5⟩ := reSub_decomp today r
      obtain ⟨hv, hs⟩ := matchAt_eq_some.mp hm
      refine ⟨([], d) :: bs, z, ?_, ?_, ?_, h4, ?_⟩
      · simp [blocksOrig, hs, h1]
      · simp [blocksNew, reSub_match hm, h2]
      · intro p hp
        rcases List.mem_cons.mp hp with rfl | hp
        · exact ⟨hv, by simp [hasMatch]⟩
        · exact h3 p hp
      · simp [hasMatch_of_matchAt hm]
    | none =>
      obtain ⟨bs, z, h1, h2, h3, h4, h5⟩ := reSub_decomp today t
      match bs, h1, h2, h3, h5 with
      | [], h1, h2, h3, h5 =>
        simp only [blocksOrig] at h1
        simp only [blocksNew] at h2
        subst h1
        refine ⟨[], c :: t, ?_, ?_, by simp, ?_, ?_⟩
        · simp [blocksOrig]
        · simp [blocksNew, reSub_skip hm, h2]
        · simp [hasMatch, hm, h4]
        · simp [hasMatch, hm, h4]
      | (seg, dd) :: rest, h1, h2, h3, h5 =>
        simp only [blocksOrig] at h1
        simp only [blocksNew] at h2
        refine ⟨(c :: seg, dd) :: rest, z, ?_, ?_, ?_, h4, ?_⟩
        · simp [blocksOrig, h1]
        · simp [blocksNew, reSub_skip hm, h2]
        · intro p hp
          rcases List.mem_cons.mp hp with rfl | hp
          · refine ⟨(h3 (seg, dd) (by simp)).1, ?_⟩
            have hsegf : hasMatch seg = false := (h3 (seg, dd) (by simp)).2
            have hmseg : matchAt (c :: seg) = none := by
              cases hms : matchAt (c :: seg) with
              | none => rfl
              | some p2 =>
                obtain ⟨d2, r2⟩ := p2
                obtain ⟨hv2, he2⟩ := matchAt_eq_some.mp hms
                have : matchAt (c :: t) = some (d2, r2 ++ mkTag dd ++ blocksOrig rest z) := by
                  apply matchAt_eq_some.mpr
                  refine ⟨hv2, ?_⟩
                  rw [h1]
                  have : (c :: seg) ++ (mkTag dd ++ blocksOrig rest z)
                      = mkTag d2 ++ (r2 ++ (mkTag dd ++ blocksOrig rest z)) := by
                    rw [he2]
                    simp
                  simpa using this
                rw [hm] at this
                cases this
            simp [hasMatch, hmseg, hsegf]
          · exact h3 p (List.mem_cons_of_mem _ hp)
        · have ht : hasMatch t = true := h5.mpr (by simp)
          simp [hasMatch, hm, ht]
termination_by s.length
decreasing_by
  · exact hlen
  · simp

/-- Every occurrence of the pattern in a re-glued decomposition whose
segments are match-free carries today's date. -/
theorem only_blocks (today : Str) (hT : validDate today = true) :
    ∀ (bs : List (Str × Str)) (z : Str),
      (∀ p ∈ bs, hasMatch p.1 = false) → hasMatch z = false →
      ∀ d r₁ r₂, validDate d = true →
        blocksNew today bs z = r₁ ++ mkTag d ++ r₂ → d = today := by
  intro bs
  induction bs with
  | nil =>
    intro z _ hz d r₁ r₂ hd heq
    simp only [blocksNew] at heq
    have : hasMatch z = true := hasMatch_iff.mpr ⟨d, r₁, r₂, hd, heq⟩
    rw [hz] at this
    cases this
  | cons b rest ih =>
    obtain ⟨seg, dd⟩ := b
    intro z hbs hz d r₁ r₂ hd heq
    simp only [blocksNew] at heq
    rcases occ_split hd hT heq with ⟨a, b', hin⟩ | ⟨h1, h2, h3⟩ | ⟨a, b', hw, hr1, hr2⟩
    · have hseg : hasMatch seg = false := hbs (seg, dd) (by simp)
      have : hasMatch seg = true := hasMatch_iff.mpr ⟨d, a, b', hd, hin⟩
      rw [hseg] at this
      cases this
    · exact h2
    · exact ih z (fun p hp => hbs p (List.mem_cons_of_mem _ hp)) hz d a b' hd hw

/-- If every occurrence of the pattern in `s` already carries today's date,
`re.sub` leaves `s` unchanged. -/
theorem reSub_fixed (today s : Str)
    (h : ∀ d r₁ r₂, validDate d = true → s = r₁ ++ mkTag d ++ r₂ → d = today) :
    reSub today s = s := by
  match s with
  | [] => exact reSub_nil today
  | c :: t =>
    match hm : matchAt (c :: t) with
    | some (d, r) =>
      have hlen : r.length < (c :: t).length := matchAt_some_length hm
      obtain ⟨hv, hs⟩ := matchAt_eq_some.mp hm
      have hd : d = today := h d [] r hv (by simpa using hs)
      have hr : reSub today r = r := by
        apply reSub_fixed today r
        intro d' r₁ r₂ hv' hr'
        refine h d' (mkTag d ++ r₁) r₂ hv' ?_
        rw [hs, hr']
        simp
      rw [reSub_match hm, hr, ← hd, ← hs]
    | none =>
      have ht : reSub today t = t := by
        apply reSub_fixed today t
        intro d' r₁ r₂ hv' hr'
        refine h d' (c :: r₁) r₂ hv' ?_
        rw [hr']
        simp
      rw [reSub_skip hm, ht]
termination_by s.length
decreasing_by
  · exact hlen
  · simp

/-- The ASCII whitespace characters Python's `str.strip()` removes. -/
def isPySpace (c : Char) : Bool :=
  c == ' ' || c == '\t' || c == '\n' || c == '\r' || c == '\x0b' || c == '\x0c'

/-- `content.strip()` (line 41): remove leading and trailing whitespace. -/
def pyStrip (s : Str) : Str :=
  ((s.dropWhile isPySpace).reverse.dropWhile isPySpace).reverse

/-- The pure replace-or-append transformation computing `new_content`
(refresh_prompts.py lines 38-43). -/
def newContent (today content : Str) : Str :=
  if hasMatch content then reSub today content
  else pyStrip content ++ "\n\n".toList ++ mkTag today ++ "\n".toList

/-- `pyStrip s` is a contiguous piece of `s`. -/
theorem pyStrip_decomp (s : Str) : ∃ x y, s = x ++ pyStrip s ++ y := by
  obtain ⟨x, hx⟩ := List.dropWhile_suffix (l := s) isPySpace
  obtain ⟨w, hw⟩ :=
    List.dropWhile_suffix (l := (s.dropWhile isPySpace).reverse) isPySpace
  refine ⟨x, w.reverse, ?_⟩
  have h1 : s.dropWhile isPySpace = pyStrip s ++ w.reverse := by
    have h2 := congrArg List.reverse hw
    simp only [List.reverse_append, List.reverse_reverse] at h2
    rw [← h2]
    simp [pyStrip]
  conv_lhs => rw [← hx]
  rw [h1]
  simp

theorem hasMatch_of_middle {x m y : Str} (hm : hasMatch m = true) :
    hasMatch (x ++ m ++ y) = true := by
  obtain ⟨d, r₁, r₂, hv, hdec⟩ := hasMatch_iff.mp hm
  refine hasMatch_iff.mpr ⟨d, x ++ r₁, r₂ ++ y, hv, ?_⟩
  rw [hdec]
  simp

theorem hasMatch_pyStrip {s : Str} (h : hasMatch s = false) :
    hasMatch (pyStrip s) = false := by
  cases hps : hasMatch (pyStrip s) with
  | false => rfl
  | true =>
    obtain ⟨x, y, hxy⟩ := pyStrip_decomp s
    rw [hxy, hasMatch_of_middle hps] at h
    cases h

/-- Appending the two blank-line newlines to stripped match-free content
creates no occurrence of the pattern: the tag contains no newline, and a
whole occurrence inside the stripped content would contradict
match-freeness. -/
theorem hasMatch_strip_pad {s : Str} (h : hasMatch s = false) :
    hasMatch (pyStrip s ++ "\n\n".toList) = false := by
  have hstrip : hasMatch (pyStrip s) = false := hasMatch_pyStrip h
  cases hall : hasMatch (pyStrip s ++ "\n\n".toList) with
  | false => rfl
  | true =>
    obtain ⟨d, r₁, r₂, hv, hdec⟩ := hasMatch_iff.mp hall
    have hdec' : pyStrip s ++ "\n\n".toList = r₁ ++ (mkTag d ++ r₂) := by
      simpa [List.append_assoc] using hdec
    exfalso
    rcases List.append_eq_append_iff.mp hdec' with ⟨k, hk1, hk2⟩ | ⟨k, hk1, hk2⟩
    · -- hk1 : r₁ = pyStrip s ++ k, hk2 : "\n\n" = k ++ (mkTag d ++ r₂)
      have hlen := congrArg List.length hk2
      simp [tag_len hv] at hlen
      omega
    · -- hk1 : pyStrip s = r₁ ++ k, hk2 : mkTag d ++ r₂ = k ++ "\n\n"
      rcases List.append_eq_append_iff.mp hk2 with ⟨m, hm1, hm2⟩ | ⟨m, hm1, hm2⟩
      · -- hm1 : k = mkTag d ++ m : the whole tag sits inside pyStrip s
        have : hasMatch (pyStrip s) = true := by
          refine hasMatch_iff.mpr ⟨d, r₁, m, hv, ?_⟩
          rw [hk1, hm1]
          simp
        rw [hstrip] at this
        cases this
      · -- hm1 : mkTag d = k ++ m, hm2 : "\n\n" = m ++ r₂
        cases m with
        | nil =>
          simp only [List.append_nil] at hm1
          have : hasMatch (pyStrip s) = true := by
            refine hasMatch_iff.mpr ⟨d, r₁, [], hv, ?_⟩
            rw [hk1, hm1]
            simp
          rw [hstrip] at this
          cases this
        | cons x m' =>
          have hx : x = '\n' := by
            have := hm2
            simp only [List.cons_append] at this
            have h2 : ('\n' :: '\n' :: [] : Str) = x :: (m' ++ r₂) := by
              simpa using this
            injection h2 with hh1 hh2
            exact hh1.symm
          subst hx
          exact tag_no_newline hv (hm1 ▸ List.mem_append_right k (List.mem_cons_self _ m'))

/-- Whatever branch is taken, the transformed content contains the tag for
`today`. -/
theorem newContent_has_tag (today content : Str) :
    ∃ r₁ r₂, newContent today content = r₁ ++ mkTag today ++ r₂ := by
  unfold newContent
  split
  · next hM =>
    obtain ⟨bs, z, h1, h2, h3, h4, h5⟩ := reSub_decomp today content
    obtain ⟨p, rest, rfl⟩ := List.exists_cons_of_ne_nil (h5.mp hM)
    obtain ⟨seg, dd⟩ := p
    refine ⟨seg, blocksNew today rest z, ?_⟩
    rw [h2]
    simp [blocksNew]
  · exact ⟨pyStrip content ++ "\n\n".toList, "\n".toList, by simp⟩

theorem hasMatch_newContent (today content : Str)
    (hT : validDate today = true) :
    hasMatch (newContent today content) = true := by
  obtain ⟨r₁, r₂, hdec⟩ := newContent_has_tag today content
  exact hasMatch_iff.mpr ⟨today, r₁, r₂, hT, hdec⟩

/-- Every date-stamped tag occurring in the transformed content is today's
tag, in both the replace and the append branch. -/
theorem only_newContent (today content : Str) (hT : validDate today = true) :
    ∀ d r₁ r₂, validDate d = true →
      newContent today content = r₁ ++ mkTag d ++ r₂ → d = today := by
  intro d r₁ r₂ hd heq
  rw [newContent] at heq
  split at heq
  · next hM =>
    obtain ⟨bs, z, h1, h2, h3, h4, h5⟩ := reSub_decomp today content
    rw [h2] at heq
    exact only_blocks today hT bs z (fun p hp => (h3 p hp).2) h4 d r₁ r₂ hd heq
  · next hM =>
    have hM' : hasMatch content = false := by
      cases hq : hasMatch content with
      | false => rfl
      | true => exact absurd hq hM
    have hU : hasMatch (pyStrip content ++ "\n\n".toList) = false :=
      hasMatch_strip_pad hM'
    have hblocks : blocksNew today [(pyStrip content ++ "\n\n".toList, [])]
        ("\n".toList) = r₁ ++ mkTag d ++ r₂ := by
      simp only [blocksNew]
      rw [← heq]
    refine only_blocks today hT [(pyStrip content ++ "\n\n".toList, [])]
      ("\n".toList) ?_ (by decide) d r₁ r₂ hd hblocks
    intro p hp
    rcases List.mem_cons.mp hp with rfl | hp
    · exact hU
    · cases hp

/-- In the append branch the transformation always changes the content. -/
theorem newContent_ne (today content : Str) (hT : validDate today = true)
    (hM : hasMatch content = false) : newContent today content ≠ content := by
  intro h
  have h2 := hasMatch_newContent today content hT
  rw [h, hM] at h2
  cases h2

/-- The transformation is idempotent for a fixed date: the second
application finds only today's tags and rewrites them to themselves. -/
theorem newContent_idem (today content : Str) (hT : validDate today = true) :
    newContent today (newContent today content) = newContent today content := by
  have hM := hasMatch_newContent today content hT
  rw [newContent, if_pos hM]
  exact reSub_fixed today _ (only_newContent today content hT)

/-- The stripped content starts with a non-whitespace character (when it
starts at all). -/
theorem pyStrip_head {s : Str} {c : Char}
    (h : (pyStrip s).head? = some c) : isPySpace c = false := by
  unfold pyStrip at h
  rw [List.head?_reverse] at h
  obtain ⟨w, hw⟩ :=
    List.dropWhile_suffix (l := (s.dropWhile isPySpace).reverse) isPySpace
  have hne : (s.dropWhile isPySpace).reverse.dropWhile isPySpace ≠ [] := by
    intro h0
    rw [h0] at h
    cases h
  have h3 := List.getLast?_append_of_ne_nil w hne
  rw [hw, List.getLast?_reverse] at h3
  rw [h] at h3
  have hspec := List.head?_dropWhile_not isPySpace s
  rw [h3] at hspec
  exact hspec

/-- The stripped content ends with a non-whitespace character (when it is
nonempty). -/
theorem pyStrip_getLast {s : Str} {c : Char}
    (h : (pyStrip s).getLast? = some c) : isPySpace c = false := by
  unfold pyStrip at h
  rw [List.getLast?_reverse] at h
  have hspec := List.head?_dropWhile_not isPySpace (s.dropWhile isPySpace).reverse
  rw [h] at hspec
  exact hspec

/-- One log line of the script, with its payload (refresh_prompts.py prints
these with `print`). -/
inductive LogMsg where
  | checking : List Str → LogMsg
  | errFileNotFound : List Str → LogMsg
  | warnMissingSection : Str → List Str → LogMsg
  | updatedTimestamp : LogMsg
  | appendedTimestamp : LogMsg
  | successUpdated : List Str → LogMsg
  | noChangesNeeded : List Str → LogMsg
deriving DecidableEq

/-- What one call of `refresh_prompt` did: its return value, the file
content afterwards (`none` when the file does not exist), whether a write
was performed, and the log lines in order. -/
structure RefreshResult where
  ret : Bool
  file : Option Str
  wrote : Bool
  logs : List LogMsg
deriving DecidableEq

/-- The five required section names (refresh_prompts.py lines 19-25). -/
def requiredSections : List Str :=
  ["Migration Instructions".toList, "Phase 1".toList, "Phase 2".toList,
   "Phase 3".toList, "Final Checklist".toList]

/-- Python's `needle in hay` substring test. -/
def containsSub (needle : Str) : Str → Bool
  | [] => needle.isEmpty
  | c :: t => needle.isPrefixOf (c :: t) || containsSub needle t

/-- The embedding of `refresh_prompt(file_path)` (refresh_prompts.py lines
8-52).  A file system holding just the target file is modelled by the
`Option Str` argument: `none` means `os.path.exists` is false.  `today` is
`datetime.date.today().isoformat()`, a parameter of the model. -/
def refresh_prompt (today : Str) (path : List Str) (file : Option Str) :
    RefreshResult :=
  match file with
  | none =>
    { ret := false, file := none, wrote := false,
      logs := [LogMsg.checking path, LogMsg.errFileNotFound path] }
  | some content =>
    let warns := (requiredSections.filter
      (fun s => ! containsSub s content)).map
      (fun s => LogMsg.warnMissingSection s path)
    let branchLog := if hasMatch content then LogMsg.updatedTimestamp
      else LogMsg.appendedTimestamp
    let nc := newContent today content
    if nc = content then
      { ret := false, file := some content, wrote := false,
        logs := LogMsg.checking path :: warns
          ++ [branchLog, LogMsg.noChangesNeeded path] }
    else
      { ret := true, file := some nc, wrote := true,
        logs := LogMsg.checking path :: warns
          ++ [branchLog, LogMsg.successUpdated path] }

/-- `PROMPTS_DIR = ".github/prompts"` (line 5), as path components. -/
def PROMPTS_DIR : List Str := [".github".toList, "prompts".toList]

/-- `TARGET_FILE = "migrate-cypress-to-playwright.prompt.md"` (line 6). -/
def TARGET_FILE : List Str := ["migrate-cypress-to-playwright.prompt.md".toList]

/-- `os.path.join` over paths modelled as component lists. -/
def joinPath (a b : List Str) : List Str := a ++ b

/-- `os.path.dirname` over paths modelled as component lists. -/
def dirname (p : List Str) : List Str := p.dropLast

/-- The `__main__` path resolution (refresh_prompts.py lines 54-61):
`target_path = os.path.join(PROMPTS_DIR, TARGET_FILE)`, and when
`PROMPTS_DIR` does not exist relative to the working directory,
`script_dir = os.path.dirname(os.path.abspath(__file__))`,
`root_dir = os.path.dirname(os.path.dirname(script_dir))`,
`target_path = os.path.join(root_dir, PROMPTS_DIR, TARGET_FILE)`.
The function is total: it only builds a candidate path and raises
nothing, whether or not the candidate exists. -/
def resolveTargetPath (promptsDirExists : Bool) (scriptAbsPath : List Str) :
    List Str :=
  if promptsDirExists then joinPath PROMPTS_DIR TARGET_FILE
  else
    joinPath (dirname (dirname (dirname scriptAbsPath)))
      (joinPath PROMPTS_DIR TARGET_FILE)

/-- A string that is exactly one well-formed tag contains no other tag. -/
theorem tag_only {e : Str} (he : validDate e = true) :
    ∀ d r₁ r₂, validDate d = true → mkTag e = r₁ ++ mkTag d ++ r₂ → d = e := by
  intro d r₁ r₂ hd heq
  have hb : blocksNew e [([], [])] [] = r₁ ++ mkTag d ++ r₂ := by
    have h0 : blocksNew e [([], [])] [] = mkTag e := by simp [blocksNew]
    rw [h0, heq]
  refine only_blocks e he [([], [])] [] ?_ rfl d r₁ r₂ hd hb
  intro p hp
  rcases List.mem_cons.mp hp with rfl | hp
  · rfl
  · cases hp

/-- Is a log line one of the validation warnings? -/
def isWarnLog : LogMsg → Bool
  | .warnMissingSection _ _ => true
  | _ => false

theorem filter_warns (path : List Str) (l : List Str) :
    (l.map (fun s => LogMsg.warnMissingSection s path)).filter isWarnLog
      = l.map (fun s => LogMsg.warnMissingSection s path) := by
  induction l with
  | nil => rfl
  | cons x xs ih => simp [List.filter, isWarnLog, ih]

/-- A sample ISO date, standing in for `datetime.date.today().isoformat()`. -/
def dateT : Str := "2026-10-12".toList

/-- The path the script's own resolution produces. -/
def pathT : List Str := PROMPTS_DIR ++ TARGET_FILE

/-- Sample content that is exactly a 2020 date-stamped tag. -/
def content2020 : Str := mkTag ("2020-01-01".toList)

/-- Sample content that is exactly today's tag: refresh changes nothing. -/
def contentToday : Str := mkTag dateT

/-- Sample content with no date-stamped tag and some outer whitespace. -/
def contentNoTag : Str := " Migration Instructions, then phases\n\n".toList

/-- The number of non-overlapping occurrences of the pattern, counted by
the same left-to-right scan `re.sub` performs. -/
def countTags (s : Str) : Nat :=
  match h : matchAt s with
  | some (_, r) => countTags r + 1
  | none =>
    match s with
    | [] => 0
    | c :: t => countTags t
termination_by s.length
decreasing_by
  · exact matchAt_some_length h
  · simp

theorem countTags_match {s d r : Str} (h : matchAt s = some (d, r)) :
    countTags s = countTags r + 1 := by
  conv_lhs => unfold countTags
  split
  · next d' r' h' =>
    rw [h'] at h
    injection h with h1
    injection h1 with h2 h3
    subst h3
    rfl
  · next h' => rw [h'] at h; cases h

theorem countTags_skip {c : Char} {t : Str} (h : matchAt (c :: t) = none) :
    countTags (c :: t) = countTags t := by
  conv_lhs => unfold countTags
  split
  · next d' r' h' => rw [h'] at h; cases h
  · rfl

theorem countTags_nomatch {s : Str} (h : hasMatch s = false) :
    countTags s = 0 := by
  induction s with
  | nil =>
    conv_lhs => unfold countTags
    split
    · next d' r' h' =>
      have hnone : matchAt [] = none := by decide
      rw [hnone] at h'
      cases h'
    · rfl
  | cons c t ih =>
    simp only [hasMatch, Bool.or_eq_false_iff] at h
    obtain ⟨h1, h2⟩ := h
    have hnone : matchAt (c :: t) = none := by
      cases hq : matchAt (c :: t) with
      | none => rfl
      | some p => rw [hq] at h1; cases h1
    rw [countTags_skip hnone]
    exact ih h2

/-- No occurrence of the pattern starts inside a match-free segment, no
matter what valid tag and continuation follow it. -/
theorem noStartInSeg {seg : Str} (hseg : hasMatch seg = false) {v : Str}
    (hv : v <:+ seg) (hne : v ≠ []) {e w : Str} (he : validDate e = true) :
    matchAt (v ++ mkTag e ++ w) = none := by
  cases hma : matchAt (v ++ mkTag e ++ w) with
  | none => rfl
  | some p =>
    exfalso
    obtain ⟨d', r'⟩ := p
    obtain ⟨hv', heq⟩ := matchAt_eq_some.mp hma
    have heq2 : v ++ mkTag e ++ w = [] ++ mkTag d' ++ r' := by simpa using heq
    rcases occ_split hv' he heq2 with ⟨a, b, hin⟩ | ⟨h1, h2, h3⟩ |
      ⟨a, b, hw2, hr1, hr2⟩
    · obtain ⟨q, hq⟩ := hv
      have : hasMatch seg = true := by
        refine hasMatch_iff.mpr ⟨d', q ++ a, b, hv', ?_⟩
        rw [← hq, hin]
        simp
      rw [hseg] at this
      cases this
    · exact hne h1.symm
    · have : v ++ mkTag e ++ a = [] := hr1.symm
      rw [List.append_eq_nil] at this
      have h2 := this.1
      rw [List.append_eq_nil] at h2
      have : (mkTag e).length = 46 := tag_len he
      rw [h2.2] at this
      cases this

theorem countTags_seg_prepend {seg : Str} (hseg : hasMatch seg = false)
    {e w : Str} (he : validDate e = true) :
    countTags (seg ++ mkTag e ++ w) = countTags (mkTag e ++ w) := by
  induction seg with
  | nil => simp
  | cons c seg' ih =>
    have hseg' : hasMatch seg' = false := by
      simp only [hasMatch, Bool.or_eq_false_iff] at hseg
      exact hseg.2
    have hnone : matchAt ((c :: seg') ++ mkTag e ++ w) = none :=
      noStartInSeg hseg (List.suffix_refl _) (by simp) he
    have hcons : (c :: seg') ++ mkTag e ++ w
        = c :: (seg' ++ mkTag e ++ w) := by simp
    rw [hcons] at hnone
    calc countTags ((c :: seg') ++ mkTag e ++ w)
        = countTags (c :: (seg' ++ mkTag e ++ w)) := by rw [hcons]
      _ = countTags (seg' ++ mkTag e ++ w) := countTags_skip hnone
      _ = countTags (mkTag e ++ w) := ih hseg'

theorem countTags_tag_prepend {e w : Str} (he : validDate e = true) :
    countTags (mkTag e ++ w) = countTags w + 1 :=
  countTags_match (matchAt_eq_some.mpr ⟨he, rfl⟩)

theorem countTags_blocksOrig {bs : List (Str × Str)} {z : Str}
    (hbs : ∀ p ∈ bs, validDate p.2 = true ∧ hasMatch p.1 = false)
    (hz : hasMatch z = false) :
    countTags (blocksOrig bs z) = bs.length := by
  induction bs with
  | nil => simpa [blocksOrig] using countTags_nomatch hz
  | cons b rest ih =>
    obtain ⟨seg, dd⟩ := b
    have hd := (hbs (seg, dd) (by simp)).1
    have hs := (hbs (seg, dd) (by simp)).2
    simp only [blocksOrig]
    rw [countTags_seg_prepend hs hd, countTags_tag_prepend hd,
      ih (fun p hp => hbs p (List.mem_cons_of_mem _ hp))]
    simp

theorem countTags_blocksNew {today : Str} (hT : validDate today = true)
    {bs : List (Str × Str)} {z : Str}
    (hbs : ∀ p ∈ bs, hasMatch p.1 = false) (hz : hasMatch z = false) :
    countTags (blocksNew today bs z) = bs.length := by
  induction bs with
  | nil => simpa [blocksNew] using countTags_nomatch hz
  | cons b rest ih =>
    obtain ⟨seg, dd⟩ := b
    have hs := hbs (seg, dd) (by simp)
    simp only [blocksNew]
    rw [countTags_seg_prepend hs hT, countTags_tag_prepend hT,
      ih (fun p hp => hbs p (List.mem_cons_of_mem _ hp))]
    simp

/-- The transformation preserves the number of pattern occurrences in the
replace branch: no tags are introduced and none are lost. -/
theorem countTags_newContent (today content : Str)
    (hT : validDate today = true) (hM : hasMatch content = true) :
    countTags (newContent today content) = countTags content := by
  obtain ⟨bs, z, h1, h2, h3, h4, h5⟩ := reSub_decomp today content
  rw [newContent, if_pos hM, h2, h1]
  rw [countTags_blocksOrig h3 h4,
    countTags_blocksNew hT (fun p hp => (h3 p hp).2) h4]

/-- C1: when the pattern occurs, refresh replaces every occurrence with
today's tag in place (the content splits into match-free segments and
occurrences; the output is the same split with every occurrence rewritten
to today's tag and every segment unchanged), and the output carries no
date-stamped tag other than today's. -/
theorem replace_branch_correct (today content : Str)
    (hT : validDate today = true) (hM : hasMatch content = true) :
    (∃ bs z, bs ≠ [] ∧ content = blocksOrig bs z ∧
      newContent today content = blocksNew today bs z ∧
      (∀ p ∈ bs, validDate p.2 = true ∧ hasMatch p.1 = false) ∧
      hasMatch z = false) ∧
    (∀ d r₁ r₂, validDate d = true →
      newContent today content = r₁ ++ mkTag d ++ r₂ → d = today) ∧
    countTags (newContent today content) = countTags content ∧
    hasMatch (newContent today content) = true := by
  refine ⟨?_, only_newContent today content hT,
    countTags_newContent today content hT hM,
    hasMatch_newContent today content hT⟩
  obtain ⟨bs, z, h1, h2, h3, h4, h5⟩ := reSub_decomp today content
  exact ⟨bs, z, h5.mp hM, h1, by rw [newContent, if_pos hM]; exact h2, h3, h4⟩

theorem replace_branch_correct_witness :
    validDate dateT = true ∧ hasMatch content2020 = true ∧
    ((∃ bs z, bs ≠ [] ∧ content2020 = blocksOrig bs z ∧
      newContent dateT content2020 = blocksNew dateT bs z ∧
      (∀ p ∈ bs, validDate p.2 = true ∧ hasMatch p.1 = false) ∧
      hasMatch z = false) ∧
    (∀ d r₁ r₂, validDate d = true →
      newContent dateT content2020 = r₁ ++ mkTag d ++ r₂ → d = dateT) ∧
    countTags (newContent dateT content2020) = countTags content2020 ∧
    hasMatch (newContent dateT content2020) = true) :=
  ⟨by decide, by decide,
    replace_branch_correct dateT content2020 (by decide) (by decide)⟩

/-- C2: with no occurrence of the pattern, refresh produces exactly the
stripped content, two newlines, the tag, and one trailing newline; and
`pyStrip` is a both-ends whitespace strip: a contiguous piece of the
content with no whitespace at either end. -/
theorem append_branch_correct (today content : Str)
    (hM : hasMatch content = false) :
    newContent today content
      = pyStrip content ++ "\n\n".toList ++ mkTag today ++ "\n".toList ∧
    (∃ x y, content = x ++ pyStrip content ++ y) ∧
    (∀ c, (pyStrip content).head? = some c → isPySpace c = false) ∧
    (∀ c, (pyStrip content).getLast? = some c → isPySpace c = false) := by
  refine ⟨?_, pyStrip_decomp content, fun c h => pyStrip_head h,
    fun c h => pyStrip_getLast h⟩
  rw [newContent, if_neg (by simp [hM])]

theorem append_branch_correct_witness :
    hasMatch contentNoTag = false ∧
    (newContent dateT contentNoTag
      = pyStrip contentNoTag ++ "\n\n".toList ++ mkTag dateT ++ "\n".toList ∧
    (∃ x y, contentNoTag = x ++ pyStrip contentNoTag ++ y) ∧
    (∀ c, (pyStrip contentNoTag).head? = some c → isPySpace c = false) ∧
    (∀ c, (pyStrip contentNoTag).getLast? = some c → isPySpace c = false)) :=
  ⟨by decide, append_branch_correct dateT contentNoTag (by decide)⟩

/-- C3: refresh is idempotent for a fixed date: a second run on the output
reproduces the output exactly, takes the no-change branch, and performs no
write. -/
theorem refresh_idempotent (today content : Str) (path : List Str)
    (hT : validDate today = true) :
    newContent today (newContent today content) = newContent today content ∧
    (refresh_prompt today path (some (newContent today content))).wrote
      = false ∧
    (refresh_prompt today path (some (newContent today content))).ret
      = false ∧
    LogMsg.noChangesNeeded path
      ∈ (refresh_prompt today path (some (newContent today content))).logs := by
  have hfix := newContent_idem today content hT
  refine ⟨hfix, ?_, ?_, ?_⟩ <;> simp [refresh_prompt, hfix]

theorem refresh_idempotent_witness :
    validDate dateT = true ∧
    (newContent dateT (newContent dateT content2020)
      = newContent dateT content2020 ∧
    (refresh_prompt dateT pathT (some (newContent dateT content2020))).wrote
      = false ∧
    (refresh_prompt dateT pathT (some (newContent dateT content2020))).ret
      = false ∧
    LogMsg.noChangesNeeded pathT
      ∈ (refresh_prompt dateT pathT
          (some (newContent dateT content2020))).logs) :=
  ⟨by decide, refresh_idempotent dateT content2020 pathT (by decide)⟩

/-- C4: refresh writes back if and only if the transformed text differs
from the original under exact string equality; the file afterwards always
holds the transformed text; and when a tag is present and every tag
already carries today's date, no write happens and the content stays
unchanged. -/
theorem write_iff_changed (today : Str) (path : List Str) (content : Str) :
    ((refresh_prompt today path (some content)).wrote = true
      ↔ newContent today content ≠ content) ∧
    (refresh_prompt today path (some content)).file
      = some (newContent today content) ∧
    (hasMatch content = true →
      (∀ d r₁ r₂, validDate d = true → content = r₁ ++ mkTag d ++ r₂ →
        d = today) →
      (refresh_prompt today path (some content)).wrote = false ∧
      (refresh_prompt today path (some content)).file = some content) := by
  by_cases hc : newContent today content = content
  · refine ⟨by simp [refresh_prompt, hc], by simp [refresh_prompt, hc], ?_⟩
    intro _ _
    exact ⟨by simp [refresh_prompt, hc], by simp [refresh_prompt, hc]⟩
  · refine ⟨by simp [refresh_prompt, hc], by simp [refresh_prompt, hc], ?_⟩
    intro hM honly
    have : newContent today content = content := by
      rw [newContent, if_pos hM]
      exact reSub_fixed today content honly
    exact absurd this hc

/-- Refresh changes nothing on content that is exactly today's tag. -/
theorem newContent_contentToday :
    newContent dateT contentToday = contentToday := by
  rw [newContent, if_pos (by decide : hasMatch contentToday = true)]
  exact reSub_fixed dateT contentToday
    (fun d r₁ r₂ hd heq => tag_only (by decide) d r₁ r₂ hd heq)

/-- C5 counterexample: the claim that the no-change return value is
distinct from the missing-file return value is false: the script returns
`False` in both cases, here at a concrete no-change input. -/
theorem ret_noop_eq_ret_missing :
    newContent dateT contentToday = contentToday ∧
    (refresh_prompt dateT pathT (some contentToday)).ret = false ∧
    (refresh_prompt dateT pathT none).ret = false ∧
    (refresh_prompt dateT pathT (some contentToday)).ret
      = (refresh_prompt dateT pathT none).ret := by
  refine ⟨newContent_contentToday, ?_, ?_, ?_⟩ <;>
    simp [refresh_prompt, newContent_contentToday]

/-- C5 (amended): on no change and on a missing file the return value is
the same `False`; the two outcomes are distinguished by the logs (a
no-changes-needed line versus a file-not-found error line), not by the
return value. -/
theorem noop_vs_missing_logs (today : Str) (path : List Str) (content : Str)
    (h : newContent today content = content) :
    (refresh_prompt today path (some content)).ret = false ∧
    LogMsg.noChangesNeeded path
      ∈ (refresh_prompt today path (some content)).logs ∧
    (refresh_prompt today path none).ret = false ∧
    LogMsg.errFileNotFound path ∈ (refresh_prompt today path none).logs ∧
    LogMsg.errFileNotFound path
      ∉ (refresh_prompt today path (some content)).logs := by
  by_cases hm : hasMatch content = true
  · refine ⟨?_, ?_, ?_, ?_, ?_⟩ <;> simp [refresh_prompt, h, hm]
  · refine ⟨?_, ?_, ?_, ?_, ?_⟩ <;> simp [refresh_prompt, h, hm]

theorem noop_vs_missing_logs_witness :
    newContent dateT contentToday = contentToday ∧
    ((refresh_prompt dateT pathT (some contentToday)).ret = false ∧
    LogMsg.noChangesNeeded pathT
      ∈ (refresh_prompt dateT pathT (some contentToday)).logs ∧
    (refresh_prompt dateT pathT none).ret = false ∧
    LogMsg.errFileNotFound pathT ∈ (refresh_prompt dateT pathT none).logs ∧
    LogMsg.errFileNotFound pathT
      ∉ (refresh_prompt dateT pathT (some contentToday)).logs) :=
  ⟨newContent_contentToday,
    noop_vs_missing_logs dateT pathT contentToday newContent_contentToday⟩

/-- C6: for a missing file, refresh logs the error naming the path, returns
the failure value `False`, performs no write, and the model stays total:
the outcome is a defined result, not an exception. -/
theorem missing_file_handled (today : Str) (path : List Str) :
    (refresh_prompt today path none).ret = false ∧
    (refresh_prompt today path none).wrote = false ∧
    (refresh_prompt today path none).file = none ∧
    (refresh_prompt today path none).logs
      = [LogMsg.checking path, LogMsg.errFileNotFound path] :=
  ⟨rfl, rfl, rfl, rfl⟩

/-- C7: the validation pass tests each of the five required section names
by case-sensitive literal substring containment, emits exactly one warning
per missing section, mutates nothing, and never blocks the
replace-or-append: the file afterwards is always the transformed text,
which contains today's tag — even when every section is absent (the
statement places no assumption on the sections). -/
theorem validation_nonblocking (today : Str) (path : List Str)
    (content : Str) :
    (refresh_prompt today path (some content)).logs.filter isWarnLog
      = (requiredSections.filter (fun s => ! containsSub s content)).map
          (fun s => LogMsg.warnMissingSection s path) ∧
    (refresh_prompt today path (some content)).file
      = some (newContent today content) ∧
    ∃ r₁ r₂, newContent today content = r₁ ++ mkTag today ++ r₂ := by
  refine ⟨?_, ?_, newContent_has_tag today content⟩
  · by_cases hc : newContent today content = content <;>
      by_cases hm : hasMatch content = true <;>
      simp [refresh_prompt, hc, hm, List.filter_append, isWarnLog,
        filter_warns]
  · by_cases hc : newContent today content = content <;>
      simp [refresh_prompt, hc]

/-- C9: whatever branch is taken, the transformed content contains today's
tag, and (today being a well-formed date) it matches the date-stamped
pattern. -/
theorem postcondition_tag (today content : Str)
    (hT : validDate today = true) :
    (∃ r₁ r₂, newContent today content = r₁ ++ mkTag today ++ r₂) ∧
    hasMatch (newContent today content) = true :=
  ⟨newContent_has_tag today content, hasMatch_newContent today content hT⟩

theorem postcondition_tag_witness :
    validDate dateT = true ∧
    ((∃ r₁ r₂, newContent dateT contentNoTag
        = r₁ ++ mkTag dateT ++ r₂) ∧
    hasMatch (newContent dateT contentNoTag) = true) :=
  ⟨by decide, postcondition_tag dateT contentNoTag (by decide)⟩

/-- C10: in the append branch the transformed text always differs from the
original (the output contains the tag, the input does not), so a write
always occurs there; a no-change outcome forces the replace branch. -/
theorem append_always_writes (today : Str) (path : List Str) (content : Str)
    (hT : validDate today = true) (hM : hasMatch content = false) :
    newContent today content ≠ content ∧
    (refresh_prompt today path (some content)).wrote = true ∧
    (refresh_prompt today path (some content)).ret = true ∧
    ∀ c2, (refresh_prompt today path (some c2)).wrote = false →
      hasMatch c2 = true := by
  have hne := newContent_ne today content hT hM
  refine ⟨hne, by simp [refresh_prompt, hne], by simp [refresh_prompt, hne],
    ?_⟩
  intro c2 hw
  cases hq : hasMatch c2 with
  | true => rfl
  | false =>
    have hne2 := newContent_ne today c2 hT hq
    simp [refresh_prompt, hne2] at hw

theorem append_always_writes_witness :
    validDate dateT = true ∧ hasMatch contentNoTag = false ∧
    (newContent dateT contentNoTag ≠ contentNoTag ∧
    (refresh_prompt dateT pathT (some contentNoTag)).wrote = true ∧
    (refresh_prompt dateT pathT (some contentNoTag)).ret = true ∧
    ∀ c2, (refresh_prompt dateT pathT (some c2)).wrote = false →
      hasMatch c2 = true) :=
  ⟨by decide, by decide,
    append_always_writes dateT pathT contentNoTag (by decide) (by decide)⟩

/-- C8: when the configured directory is missing relative to the working
directory, the candidate path is recomputed two levels above the script's
own directory, joined with the configured directory and filename; the
resolution itself is total, whether or not the candidate exists. -/
theorem resolve_fallback_path (root : List Str) :
    resolveTargetPath false
        (root ++ [".github".toList, "scripts".toList,
          "refresh_prompts.py".toList])
      = root ++ PROMPTS_DIR ++ TARGET_FILE ∧
    (∀ p : List Str, resolveTargetPath true p
      = PROMPTS_DIR ++ TARGET_FILE) := by
  constructor
  · have e1 : root ++ [".github".toList, "scripts".toList,
        "refresh_prompts.py".toList]
        = ((root ++ [".github".toList]) ++ ["scripts".toList])
          ++ ["refresh_prompts.py".toList] := by simp
    simp only [resolveTargetPath, if_false, Bool.false_eq_true, e1, dirname,
      joinPath, List.dropLast_concat]
    simp
  · intro p
    rfl

